import Mathlib

set_option maxHeartbeats 1000000
set_option linter.unusedVariables false

/-!
# Verification of the gorg fuzzy-search subsystem

Shallow embedding of the Rust sources of `gorg` (src/text.rs, src/fuzzy.rs,
src/db.rs, src/tui.rs, src/app.rs) into Lean 4.

Modelling conventions:
* Rust `&str` / `String` values are modelled as `List Char`.  Rust compares
  strings by their UTF-8 bytes; byte-lexicographic order on UTF-8 coincides
  with code-point-lexicographic order, so the Mathlib lexicographic order on
  `List Char` is the same order.  Byte lengths and byte offsets are computed
  with `Char.utf8Size`.
* `f32` scores are idealized as exact rationals `ℚ`; the score arithmetic of
  the program (sums and products of small nonnegative values) is faithfully
  mirrored, including the early-return on a zero part score.
* Iterator pipelines are translated to structurally recursive list functions.
-/

/-- The Unicode characters with the White_Space property: the set recognized
by Rust `char::is_whitespace`, used by `str::trim` and by
`is_punctuation` in src/text.rs. -/
def rustWhitespace : List Char :=
  ['\t', '\n', '\x0b', '\x0c', '\r', ' ', '\x85', ' ', ' ',
   ' ', ' ', ' ', ' ', ' ', ' ', ' ',
   ' ', ' ', ' ', ' ', ' ', ' ', ' ',
   ' ', '　']

/-- Rust `char::is_whitespace`. -/
def isRustWs (c : Char) : Bool :=
  rustWhitespace.contains c

/-- src/text.rs `is_punctuation`: whitespace or one of four ASCII
punctuation ranges. -/
def is_punctuation (ch : Char) : Bool :=
  isRustWs ch
    || ('!' ≤ ch && ch ≤ '/')
    || (':' ≤ ch && ch ≤ '@')
    || ('[' ≤ ch && ch ≤ '\x60')
    || ('{' ≤ ch && ch ≤ '~')

/-- Rust `str::trim`: drop leading and trailing whitespace. -/
def trimStr (l : List Char) : List Char :=
  ((l.dropWhile isRustWs).reverse.dropWhile isRustWs).reverse

/-- src/fuzzy.rs `WORD_SEPARATORS`: the characters the Matcher splits
query and candidate strings on. -/
def WORD_SEPARATORS : List Char :=
  [' ', '-', ',', '.', '_', '/', '\\']

/-- Whether a character is one of the Matcher's word separators
(the split pattern `data.split(WORD_SEPARATORS)` matches exactly these). -/
def isWordSep (c : Char) : Bool :=
  WORD_SEPARATORS.contains c

/-- src/tui.rs `TextMovementDirection`. -/
inductive TextMovementDirection
  | left
  | right
deriving DecidableEq

/-- src/tui.rs `TextMovementAmount` (`End` renamed `toEnd`). -/
inductive TextMovementAmount
  | toEnd
  | char
  | word
deriving DecidableEq

/-- `iter.find(|(_, ch)| is_punctuation(ch))` over an enumerated
character iterator. -/
def findPunct (l : List (Nat × Char)) : Option (Nat × Char) :=
  l.find? (fun p => is_punctuation p.2)

/-- `iter.skip_while(|(_, ch)| is_punctuation(ch)).find(|(_, ch)|
is_punctuation(ch))` over an enumerated character iterator. -/
def skipPunctFind (l : List (Nat × Char)) : Option (Nat × Char) :=
  (l.dropWhile (fun p => is_punctuation p.2)).find? (fun p => is_punctuation p.2)

/-- src/tui.rs free function `move_cursor`.  The text is a `Vec<char>` and
the cursor an index in `0..=text.len()`.  The `[]` match arms are the
`expect("First char must be found")` cases, unreachable under the cursor
invariant. -/
def move_cursor (text : List Char) (cursor : Nat)
    (direction : TextMovementDirection) (amount : TextMovementAmount) : Nat :=
  if text.isEmpty then 0 else
  match direction, amount with
  | .left, .toEnd => 0
  | .right, .toEnd => text.length
  | .left, .char => if cursor > 0 then cursor - 1 else 0
  | .right, .char => if cursor < text.length then cursor + 1 else cursor
  | .left, .word =>
      if cursor > 0 then
        match (text.take cursor).reverse with
        | [] => 0
        | first :: restRev =>
            let res := if is_punctuation first
              then skipPunctFind (List.enumFrom 1 restRev)
              else findPunct (List.enumFrom 1 restRev)
            match res with
            | some (offset, _) => cursor - offset
            | none => 0
      else cursor
  | .right, .word =>
      if cursor < text.length then
        match text.drop cursor with
        | [] => cursor
        | first :: rest =>
            let res := if is_punctuation first
              then skipPunctFind (List.enumFrom 1 rest)
              else findPunct (List.enumFrom 1 rest)
            match res with
            | some (offset, _) => cursor + offset
            | none => text.length
      else cursor

/-- The test text of the spec and of the src/tui.rs unit tests. -/
def groundControlText : List Char :=
  ['g', 'r', 'o', 'u', 'n', 'd', ' ', 'c', 'o', 'n', 't', 'r', 'o', 'l',
   ' ', 't', 'o', ' ', 'm', 'a', 'j', 'o', 'r', ' ', 't', 'o', 'm']

/-- Claim C9: word-boundary cursor movement over
"ground control to major tom": moving right by one word from offset 6
gives 14, right from 0 gives 6, left from 6 gives 0, and left from 27
gives 24. -/
theorem move_cursor_ground_control :
    move_cursor groundControlText 6 .right .word = 14 ∧
    move_cursor groundControlText 0 .right .word = 6 ∧
    move_cursor groundControlText 6 .left .word = 0 ∧
    move_cursor groundControlText 27 .left .word = 24 := by
  decide

/-- Claim C3, counterexample: `'!'` satisfies the word-movement boundary
predicate `is_punctuation` but is not a Matcher word separator, so the two
boundary predicates are not the same. -/
theorem matcher_separator_ne_punctuation :
    is_punctuation '!' = true ∧ isWordSep '!' = false := by
  decide

/-- Claim C3, amended: the Matcher tokenizes on the seven separator
characters space, '-', ',', '.', '_', '/', '\'; every one of those
satisfies the word-movement boundary predicate `is_punctuation`, but not
conversely. -/
theorem matcher_separator_subset_punctuation :
    ∀ ch : Char, isWordSep ch = true → is_punctuation ch = true := by
  intro ch h
  have hmem : ch ∈ WORD_SEPARATORS := by
    simpa [isWordSep] using h
  fin_cases hmem <;> decide

/-- Witness for `matcher_separator_subset_punctuation` at `'-'`. -/
theorem matcher_separator_subset_punctuation_witness :
    isWordSep '-' = true ∧ is_punctuation '-' = true :=
  ⟨by decide, matcher_separator_subset_punctuation '-' (by decide)⟩

/-! ## The Matcher (src/fuzzy.rs) -/

/-- Rust `str::split` on a predicate over characters: splits at every
matching character, keeping empty segments (`"a//b"` gives
`["a", "", "b"]`, `""` gives `[""]`). -/
def splitBy (p : Char → Bool) : List Char → List (List Char)
  | [] => [[]]
  | c :: rest =>
      if p c then [] :: splitBy p rest
      else (splitBy p rest).modifyHead (fun s => c :: s)

/-- `data.split(WORD_SEPARATORS)` from src/fuzzy.rs. -/
def splitSep (l : List Char) : List (List Char) :=
  splitBy isWordSep l

/-- `Keywords::new`: split on the word separators and discard empty
tokens.  The same pipeline is applied to the score target inside
`Keywords::score`. -/
def tokens (l : List Char) : List (List Char) :=
  (splitSep l).filter (fun t => !t.isEmpty)

/-- Rust `str::len`: the length in UTF-8 bytes. -/
def byteLen (l : List Char) : Nat :=
  (l.map Char.utf8Size).sum

/-- `begins p t` holds when `p` is a leading segment of `t`. -/
def begins : List Char → List Char → Bool
  | [], _ => true
  | _ :: _, [] => false
  | a :: as, b :: bs => a == b && begins as bs

/-- `t.match_indices(p).next().map(|(i, _)| i)`: the byte offset of the
leftmost occurrence of `p` as a substring of `t`, if any. -/
def firstMatch (p : List Char) : List Char → Option Nat
  | [] => if begins p [] then some 0 else none
  | c :: rest =>
      if begins p (c :: rest) then some 0
      else (firstMatch p rest).map (fun i => c.utf8Size + i)

/-- The `distance` factor of `Keywords::score`, keyed by
`ti.max(pi) - ti.min(pi)`. -/
def distFactor : Nat → ℚ
  | 0 => 1
  | 1 => 9 / 10
  | 2 => 4 / 5
  | 3 => 7 / 10
  | _ => 3 / 5

/-- The body of the inner loop of `Keywords::score`: the score
contribution of query token `p` (token position `pi`) against candidate
token `t` (token position `ti`); `0` when `p` does not occur in `t`. -/
def contribution (pi : Nat) (p : List Char) (ti : Nat) (t : List Char) : ℚ :=
  match firstMatch p t with
  | none => 0
  | some i =>
      let distance := distFactor (max ti pi - min ti pi)
      let filled : ℚ := (byteLen p : ℚ) / (byteLen t : ℚ)
      let index : ℚ := 1 - (i : ℚ) / (byteLen t : ℚ)
      filled * 2 + index * 2 * distance

/-- Rust `Iterator::enumerate`, generalized to a starting index. -/
def enumF {α : Type} (n : Nat) : List α → List (Nat × α)
  | [] => []
  | a :: as => (n, a) :: enumF (n + 1) as

/-- The inner `for (ti, t) in target.split(...).filter(...).enumerate()`
loop of `Keywords::score`, accumulating `part_score`. -/
def partScoreAux (pi : Nat) (p : List Char) (acc : ℚ) :
    List (Nat × List Char) → ℚ
  | [] => acc
  | (ti, t) :: rest => partScoreAux pi p (acc + contribution pi p ti t) rest

/-- The outer `for (pi, p) in self.parts.iter().enumerate()` loop of
`Keywords::score`, with the early `return 0.` when a part score is zero. -/
def scoreLoop (tts : List (Nat × List Char)) (acc : ℚ) :
    List (Nat × List Char) → ℚ
  | [] => acc
  | (pi, p) :: rest =>
      let ps := partScoreAux pi p 0 tts
      if ps = 0 then 0 else scoreLoop tts (acc + ps) rest

/-- src/fuzzy.rs `Keywords::score`: `Keywords::new(query).score(target)`. -/
def keywordsScore (query target : List Char) : ℚ :=
  scoreLoop (enumF 0 (tokens target)) 0 (enumF 0 (tokens query))

/-- Modelled from the spec: `fuzzy::calc_score` is called from src/db.rs
but its definition is absent from the given sources.  Per spec §4.1 the
Matcher exposes `score(query, candidate)`, realized in src/fuzzy.rs by
`Keywords::new(query).score(candidate)`, so `calc_score` delegates to it. -/
def calc_score (matcher target : List Char) : ℚ :=
  keywordsScore matcher target

/-- `occursIn p t`: `p` occurs as a contiguous substring of `t`
(the claim's "occurs as a substring"). -/
def occursIn (p t : List Char) : Prop :=
  ∃ k, begins p (t.drop k) = true

/-! ### Matcher lemmas -/

theorem begins_byteLen_le {p t : List Char} (h : begins p t = true) :
    byteLen p ≤ byteLen t := by
  induction p generalizing t with
  | nil => simp [byteLen]
  | cons a as ih =>
      cases t with
      | nil => simp [begins] at h
      | cons b bs =>
          simp only [begins, Bool.and_eq_true, beq_iff_eq] at h
          obtain ⟨rfl, h2⟩ := h
          have := ih h2
          simp only [byteLen, List.map_cons, List.sum_cons] at *
          omega

theorem firstMatch_bound {p t : List Char} {i : Nat} (hp : p ≠ [])
    (h : firstMatch p t = some i) : i + byteLen p ≤ byteLen t := by
  induction t generalizing i with
  | nil =>
      cases p with
      | nil => exact absurd rfl hp
      | cons a as => simp [firstMatch, begins] at h
  | cons c rest ih =>
      rw [firstMatch] at h
      by_cases hb : begins p (c :: rest) = true
      · rw [if_pos hb] at h
        obtain rfl : (0 : Nat) = i := by simpa using h
        simpa using begins_byteLen_le hb
      · rw [if_neg hb] at h
        simp only [Option.map_eq_some'] at h
        obtain ⟨j, hj, rfl⟩ := h
        have := ih hj
        simp only [byteLen, List.map_cons, List.sum_cons] at *
        omega

theorem byteLen_pos {p : List Char} (hp : p ≠ []) : 0 < byteLen p := by
  cases p with
  | nil => exact absurd rfl hp
  | cons a as =>
      have := Char.utf8Size_pos a
      simp only [byteLen, List.map_cons, List.sum_cons]
      omega

theorem distFactor_pos (d : Nat) : 0 < distFactor d := by
  match d with
  | 0 => norm_num [distFactor]
  | 1 => norm_num [distFactor]
  | 2 => norm_num [distFactor]
  | 3 => norm_num [distFactor]
  | n + 4 =>
      have h : distFactor (n + 4) = 3 / 5 := rfl
      rw [h]; norm_num

theorem contribution_pos {pi ti : Nat} {p t : List Char} {i : Nat}
    (hp : p ≠ []) (h : firstMatch p t = some i) :
    0 < contribution pi p ti t := by
  have hbound := firstMatch_bound hp h
  have hbp : 0 < byteLen p := byteLen_pos hp
  have hbt : 0 < byteLen t := by omega
  have hi : i < byteLen t := by omega
  rw [contribution, h]
  have hbtQ : (0 : ℚ) < (byteLen t : ℚ) := by exact_mod_cast hbt
  have hfilled : (0 : ℚ) < (byteLen p : ℚ) / (byteLen t : ℚ) := by
    apply div_pos
    · exact_mod_cast hbp
    · exact hbtQ
  have hindex : (0 : ℚ) < 1 - (i : ℚ) / (byteLen t : ℚ) := by
    have : (i : ℚ) / (byteLen t : ℚ) < 1 := by
      rw [div_lt_one hbtQ]
      exact_mod_cast hi
    linarith
  have hdist := distFactor_pos (max ti pi - min ti pi)
  have h1 : (0 : ℚ) < (byteLen p : ℚ) / (byteLen t : ℚ) * 2 := by linarith
  have h2 : (0 : ℚ) <
      (1 - (i : ℚ) / (byteLen t : ℚ)) * 2 * distFactor (max ti pi - min ti pi) := by
    have := mul_pos (mul_pos hindex (by norm_num : (0 : ℚ) < 2)) hdist
    linarith
  linarith

theorem contribution_nonneg {pi ti : Nat} {p t : List Char} (hp : p ≠ []) :
    0 ≤ contribution pi p ti t := by
  cases h : firstMatch p t with
  | none => rw [contribution, h]
  | some i => exact le_of_lt (contribution_pos hp h)

theorem contribution_eq_zero_iff {pi ti : Nat} {p t : List Char} (hp : p ≠ []) :
    contribution pi p ti t = 0 ↔ firstMatch p t = none := by
  constructor
  · intro h0
    cases h : firstMatch p t with
    | none => rfl
    | some i =>
        have := @contribution_pos pi ti p t i hp h
        rw [h0] at this
        exact absurd this (lt_irrefl 0)
  · intro h
    rw [contribution, h]

theorem partScoreAux_acc (pi : Nat) (p : List Char) (acc : ℚ)
    (tts : List (Nat × List Char)) :
    partScoreAux pi p acc tts = acc + partScoreAux pi p 0 tts := by
  induction tts generalizing acc with
  | nil => simp [partScoreAux]
  | cons tt rest ih =>
      obtain ⟨ti, t⟩ := tt
      rw [partScoreAux, partScoreAux, ih, ih (0 + contribution pi p ti t)]
      ring

theorem partScoreAux_nonneg {pi : Nat} {p : List Char} (hp : p ≠ [])
    (tts : List (Nat × List Char)) : 0 ≤ partScoreAux pi p 0 tts := by
  induction tts with
  | nil => simp [partScoreAux]
  | cons tt rest ih =>
      obtain ⟨ti, t⟩ := tt
      rw [partScoreAux, partScoreAux_acc]
      have := @contribution_nonneg pi ti p t hp
      linarith

theorem partScoreAux_eq_zero_iff {pi : Nat} {p : List Char} (hp : p ≠ [])
    (tts : List (Nat × List Char)) :
    partScoreAux pi p 0 tts = 0 ↔ ∀ tt ∈ tts, firstMatch p tt.2 = none := by
  induction tts with
  | nil => simp [partScoreAux]
  | cons tt rest ih =>
      obtain ⟨ti, t⟩ := tt
      rw [partScoreAux, zero_add, partScoreAux_acc]
      have hc := @contribution_nonneg pi ti p t hp
      have hr := @partScoreAux_nonneg pi p hp rest
      rw [add_eq_zero_iff_of_nonneg hc hr]
      simp only [List.mem_cons, forall_eq_or_imp]
      rw [ih, contribution_eq_zero_iff hp]

theorem scoreLoop_eq_zero_iff (tts : List (Nat × List Char)) :
    ∀ (parts : List (Nat × List Char)), (∀ q ∈ parts, q.2 ≠ []) →
    ∀ (acc : ℚ), 0 ≤ acc →
    (scoreLoop tts acc parts = 0 ↔
      (∃ q ∈ parts, partScoreAux q.1 q.2 0 tts = 0) ∨ (parts = [] ∧ acc = 0)) := by
  intro parts
  induction parts with
  | nil =>
      intro _ acc _
      simp [scoreLoop]
  | cons q rest ih =>
      intro hne acc hacc
      obtain ⟨pi, p⟩ := q
      have hp : p ≠ [] := hne (pi, p) (List.mem_cons_self _ _)
      rw [scoreLoop]
      by_cases hz : partScoreAux pi p 0 tts = 0
      · rw [if_pos hz]
        simp only [eq_self_iff_true, true_iff]
        left
        exact ⟨(pi, p), List.mem_cons_self _ _, hz⟩
      · rw [if_neg hz]
        have hps : 0 < partScoreAux pi p 0 tts :=
          lt_of_le_of_ne (partScoreAux_nonneg hp tts) (Ne.symm hz)
        have hrest : ∀ q ∈ rest, q.2 ≠ [] := fun q hq =>
          hne q (List.mem_cons_of_mem _ hq)
        rw [ih hrest (acc + partScoreAux pi p 0 tts) (by linarith)]
        constructor
        · rintro (⟨q, hq, hq0⟩ | ⟨_, habs⟩)
          · exact Or.inl ⟨q, List.mem_cons_of_mem _ hq, hq0⟩
          · exact absurd habs (by linarith)
        · rintro (⟨q, hq, hq0⟩ | ⟨habs, _⟩)
          · rcases List.mem_cons.mp hq with rfl | hq'
            · exact absurd hq0 hz
            · exact Or.inl ⟨q, hq', hq0⟩
          · exact absurd habs (by simp)

theorem scoreLoop_nonneg (tts : List (Nat × List Char))
    (parts : List (Nat × List Char)) (hne : ∀ q ∈ parts, q.2 ≠ [])
    (acc : ℚ) (hacc : 0 ≤ acc) : 0 ≤ scoreLoop tts acc parts := by
  induction parts generalizing acc with
  | nil => simpa [scoreLoop] using hacc
  | cons q rest ih =>
      obtain ⟨pi, p⟩ := q
      have hp : p ≠ [] := hne (pi, p) (List.mem_cons_self _ _)
      rw [scoreLoop]
      by_cases hz : partScoreAux pi p 0 tts = 0
      · rw [if_pos hz]
      · rw [if_neg hz]
        have hps : 0 < partScoreAux pi p 0 tts :=
          lt_of_le_of_ne (partScoreAux_nonneg hp tts) (Ne.symm hz)
        exact ih (fun q hq => hne q (List.mem_cons_of_mem _ hq)) _ (by linarith)

theorem mem_tokens_ne_nil {s p : List Char} (h : p ∈ tokens s) : p ≠ [] := by
  have := List.of_mem_filter h
  simpa using this

theorem exists_enumF_iff {α : Type} (P : α → Prop) :
    ∀ (l : List α) (n : Nat), (∃ q ∈ enumF n l, P q.2) ↔ ∃ x ∈ l, P x := by
  intro l
  induction l with
  | nil => intro n; simp [enumF]
  | cons a as ih =>
      intro n
      simp only [enumF, List.mem_cons]
      constructor
      · rintro ⟨q, hq | hq, hP⟩
        · subst hq; exact ⟨a, Or.inl rfl, hP⟩
        · obtain ⟨x, hx, hP'⟩ := (ih (n + 1)).mp ⟨q, hq, hP⟩
          exact ⟨x, Or.inr hx, hP'⟩
      · rintro ⟨x, hx | hx, hP⟩
        · subst hx; exact ⟨(n, x), Or.inl rfl, hP⟩
        · obtain ⟨q, hq, hP'⟩ := (ih (n + 1)).mpr ⟨x, hx, hP⟩
          exact ⟨q, Or.inr hq, hP'⟩

theorem forall_enumF_iff {α : Type} (P : α → Prop) :
    ∀ (l : List α) (n : Nat), (∀ q ∈ enumF n l, P q.2) ↔ ∀ x ∈ l, P x := by
  intro l
  induction l with
  | nil => intro n; simp [enumF]
  | cons a as ih =>
      intro n
      simp only [enumF, List.mem_cons, forall_eq_or_imp]
      rw [ih (n + 1)]

theorem mem_enumF_snd {α : Type} {q : Nat × α} :
    ∀ {l : List α} {n : Nat}, q ∈ enumF n l → q.2 ∈ l := by
  intro l
  induction l with
  | nil => intro n h; simp [enumF] at h
  | cons a as ih =>
      intro n h
      rcases List.mem_cons.mp h with rfl | h'
      · exact List.mem_cons_self _ _
      · exact List.mem_cons_of_mem _ (ih h')

theorem enumF_eq_nil_iff {α : Type} {l : List α} {n : Nat} :
    enumF n l = [] ↔ l = [] := by
  cases l <;> simp [enumF]

theorem firstMatch_isSome_iff {p : List Char} :
    ∀ t : List Char, (∃ i, firstMatch p t = some i) ↔ occursIn p t := by
  intro t
  induction t with
  | nil =>
      rw [occursIn]
      constructor
      · rintro ⟨i, hi⟩
        rw [firstMatch] at hi
        by_cases hb : begins p ([] : List Char) = true
        · exact ⟨0, by simpa using hb⟩
        · rw [if_neg hb] at hi; cases hi
      · rintro ⟨k, hk⟩
        simp only [List.drop_nil] at hk
        exact ⟨0, by rw [firstMatch, if_pos hk]⟩
  | cons c rest ih =>
      rw [occursIn]
      constructor
      · rintro ⟨i, hi⟩
        rw [firstMatch] at hi
        by_cases hb : begins p (c :: rest) = true
        · exact ⟨0, by simpa using hb⟩
        · rw [if_neg hb] at hi
          simp only [Option.map_eq_some'] at hi
          obtain ⟨j, hj, _⟩ := hi
          obtain ⟨k, hk⟩ := (ih).mp ⟨j, hj⟩
          exact ⟨k + 1, by simpa using hk⟩
      · rintro ⟨k, hk⟩
        rw [firstMatch]
        by_cases hb : begins p (c :: rest) = true
        · exact ⟨0, by rw [if_pos hb]⟩
        · rw [if_neg hb]
          cases k with
          | zero => exact absurd (by simpa using hk) hb
          | succ k' =>
              obtain ⟨j, hj⟩ := (ih).mpr ⟨k', by simpa using hk⟩
              exact ⟨c.utf8Size + j, by rw [hj]; rfl⟩

theorem firstMatch_eq_none_iff {p t : List Char} :
    firstMatch p t = none ↔ ¬ occursIn p t := by
  rw [← firstMatch_isSome_iff]
  cases h : firstMatch p t with
  | none => simp
  | some i => simp [h]

/-- The spec's distance table, written from the spec's words:
`|ti-pi|`: 0→1.0, 1→0.9, 2→0.8, 3→0.7, else→0.6. -/
def specDistance (d : Nat) : ℚ :=
  if d = 0 then 1
  else if d = 1 then 9 / 10
  else if d = 2 then 4 / 5
  else if d = 3 then 7 / 10
  else 3 / 5

/-- The spec's per-pair contribution formula `filled*2 + index*2*distance`
with `filled = len(p)/len(t)`, `index = 1 - i/len(t)` and the distance
keyed by `|ti - pi|`, written from the spec's words for comparison with
the source-translated `contribution`. -/
def specContribution (pi : Nat) (p : List Char) (ti : Nat) (t : List Char)
    (i : Nat) : ℚ :=
  (byteLen p : ℚ) / (byteLen t : ℚ) * 2
    + (1 - (i : ℚ) / (byteLen t : ℚ)) * 2
      * specDistance ((ti : ℤ) - (pi : ℤ)).natAbs

theorem distFactor_eq_specDistance (d : Nat) : distFactor d = specDistance d := by
  match d with
  | 0 => rfl
  | 1 => rfl
  | 2 => rfl
  | 3 => rfl
  | n + 4 =>
      have h1 : distFactor (n + 4) = 3 / 5 := rfl
      have h2 : specDistance (n + 4) = 3 / 5 := by
        simp only [specDistance]
        rw [if_neg (by omega), if_neg (by omega), if_neg (by omega),
          if_neg (by omega)]
      rw [h1, h2]

theorem partScoreAux_eq_sum (pi : Nat) (p : List Char)
    (tts : List (Nat × List Char)) :
    partScoreAux pi p 0 tts =
      (tts.map (fun tt => contribution pi p tt.1 tt.2)).sum := by
  induction tts with
  | nil => simp [partScoreAux]
  | cons tt rest ih =>
      obtain ⟨ti, t⟩ := tt
      rw [partScoreAux, zero_add, partScoreAux_acc, ih]
      simp

/-- Claim C7: when query token `p` (position `pi`) occurs in candidate
token `t` (position `ti`) with first occurrence at byte offset `i`, its
score contribution is `filled*2 + index*2*distance` with
`filled = len(p)/len(t)`, `index = 1 - i/len(t)` and the distance table
0→1.0, 1→0.9, 2→0.8, 3→0.7, else→0.6 keyed by `|ti-pi|`; and a query
token's total is the sum of the contributions over all candidate tokens. -/
theorem contribution_formula :
    (∀ (pi : Nat) (p : List Char) (ti : Nat) (t : List Char) (i : Nat),
      firstMatch p t = some i →
        contribution pi p ti t = specContribution pi p ti t i) ∧
    (∀ (pi : Nat) (p target : List Char),
      partScoreAux pi p 0 (enumF 0 (tokens target)) =
        ((enumF 0 (tokens target)).map
          (fun tt => contribution pi p tt.1 tt.2)).sum) := by
  constructor
  · intro pi p ti t i h
    rw [contribution, h, specContribution]
    have hd : max ti pi - min ti pi = ((ti : ℤ) - (pi : ℤ)).natAbs := by omega
    rw [hd, distFactor_eq_specDistance]
  · intro pi p target
    exact partScoreAux_eq_sum pi p (enumF 0 (tokens target))

/-- Witness for `contribution_formula` at `p = "a"`, `t = "ab"`. -/
theorem contribution_formula_witness :
    firstMatch ['a'] ['a', 'b'] = some 0 ∧
    contribution 0 ['a'] 1 ['a', 'b'] = specContribution 0 ['a'] 1 ['a', 'b'] 0 :=
  ⟨by decide, contribution_formula.1 0 ['a'] 1 ['a', 'b'] 0 (by decide)⟩

/-- Claim C2, counterexample: for the empty query the score is `0`
against any candidate although no query token fails to occur (the query
has no tokens at all), refuting the claimed "iff". -/
theorem score_zero_iff_counterexample :
    keywordsScore [] ['a'] = 0 ∧ ∀ p ∈ tokens ([] : List Char), False := by
  constructor
  · rfl
  · intro p hp
    simp [tokens, splitSep, splitBy] at hp

/-- Claim C2, amended: the Matcher score of `q` against `c` is always
nonnegative, and it is `0` iff `q` has no tokens at all, or some token of
`q` has no occurrence as a substring of any token of `c` (AND semantics);
otherwise it is strictly positive. -/
theorem score_eq_zero_iff (q c : List Char) :
    0 ≤ keywordsScore q c ∧
    (keywordsScore q c = 0 ↔
      tokens q = [] ∨ ∃ p ∈ tokens q, ∀ t ∈ tokens c, ¬ occursIn p t) := by
  have hne : ∀ x ∈ enumF 0 (tokens q), x.2 ≠ [] := fun x hx =>
    mem_tokens_ne_nil (mem_enumF_snd hx)
  constructor
  · exact scoreLoop_nonneg _ _ hne 0 le_rfl
  · rw [keywordsScore,
      scoreLoop_eq_zero_iff (enumF 0 (tokens c)) (enumF 0 (tokens q)) hne 0 le_rfl]
    constructor
    · rintro (⟨x, hx, hx0⟩ | ⟨hnil, _⟩)
      · right
        have hp : x.2 ≠ [] := mem_tokens_ne_nil (mem_enumF_snd hx)
        rw [partScoreAux_eq_zero_iff hp] at hx0
        refine ((exists_enumF_iff
          (fun p => ∀ t ∈ tokens c, ¬ occursIn p t) (tokens q) 0).mp)
          ⟨x, hx, ?_⟩
        intro t ht
        rw [← firstMatch_eq_none_iff]
        exact ((forall_enumF_iff (fun t => firstMatch x.2 t = none)
          (tokens c) 0).mp hx0) t ht
      · left; exact enumF_eq_nil_iff.mp hnil
    · rintro (hnil | hex)
      · right
        constructor
        · rw [enumF_eq_nil_iff]; exact hnil
        · rfl
      · left
        obtain ⟨x, hx, hP⟩ := (exists_enumF_iff
          (fun p => ∀ t ∈ tokens c, ¬ occursIn p t) (tokens q) 0).mpr hex
        refine ⟨x, hx, ?_⟩
        have hp : x.2 ≠ [] := mem_tokens_ne_nil (mem_enumF_snd hx)
        rw [partScoreAux_eq_zero_iff hp]
        rw [forall_enumF_iff (fun t => firstMatch x.2 t = none) (tokens c) 0]
        intro t ht
        rw [firstMatch_eq_none_iff]
        exact hP t ht

/-! ## The Index (src/db.rs) -/

/-- Rust `data.split('\n')`: the buffer's line segments (empty segments
kept; splitting `""` gives `[""]`). -/
def splitNl (l : List Char) : List (List Char) :=
  splitBy (fun c => c == '\n') l

/-- src/db.rs `DB::view`: the buffer's lines, split on newline, each
trimmed (empty lines kept). -/
def dbView (data : List Char) : List (List Char) :=
  (splitNl data).map trimStr

/-- src/db.rs `DBView::find_matches`: the final contents of the
caller-owned `results` buffer: the previous contents are cleared, every
line of nonzero score is appended with its score, and the buffer is
sorted descending by score.  Rust `sort_by` is a stable sort driven by
`score2.partial_cmp(score1)`, i.e. the stable sort for the total preorder
"score of the left entry is at least the score of the right entry";
`insertionSort` with that relation is the same stable sort. -/
def dbViewFindMatches (lines : List (List Char)) (matcher : List Char)
    (results : List (List Char × ℚ)) : List (List Char × ℚ) :=
  List.insertionSort (fun x y => y.2 ≤ x.2)
    (lines.filterMap (fun a =>
      let s := calc_score matcher a
      if s = 0 then none else some (a, s)))

/-- src/db.rs `DB::find_matches`: the sequence of items yielded by the
returned iterator.  When the matcher is empty every raw segment is
yielded; otherwise a segment is trimmed, dropped when empty or of zero
score, and yielded trimmed. -/
def dbFindMatches (data matcher : List Char) : List (List Char) :=
  (splitNl data).filterMap (fun a =>
    if matcher.isEmpty then some a
    else
      let a' := trimStr a
      if a'.isEmpty then none
      else if calc_score matcher a' = 0 then none else some a')

theorem list_filterMap_some {α : Type} (l : List α) :
    l.filterMap (fun a => some a) = l := by
  induction l with
  | nil => rfl
  | cons a as ih => simp [List.filterMap_cons, ih]

/-- Claim C4: `DBView::find_matches` discards the previous contents of
the result buffer, fills it with exactly the lines of nonzero matcher
score paired with their scores, and leaves it sorted by non-increasing
score. -/
theorem dbview_find_matches_spec
    (lines : List (List Char)) (matcher : List Char)
    (out : List (List Char × ℚ)) :
    dbViewFindMatches lines matcher out = dbViewFindMatches lines matcher [] ∧
    (dbViewFindMatches lines matcher out).Perm
      (lines.filterMap (fun a =>
        let s := calc_score matcher a
        if s = 0 then none else some (a, s))) ∧
    List.Sorted (fun x y : List Char × ℚ => y.2 ≤ x.2)
      (dbViewFindMatches lines matcher out) := by
  refine ⟨rfl, List.perm_insertionSort _ _, ?_⟩
  haveI htot : IsTotal (List Char × ℚ) (fun x y => y.2 ≤ x.2) :=
    ⟨fun a b => le_total b.2 a.2⟩
  haveI htrans : IsTrans (List Char × ℚ) (fun x y => y.2 ≤ x.2) :=
    ⟨fun a b c hab hbc => le_trans hbc hab⟩
  exact List.sorted_insertionSort _ _

/-- Claim C8, counterexample: on the buffer `" a \n"` with the empty
query, `DB::find_matches` yields the raw segments `" a "` and `""` —
not the trimmed non-empty lines (`"a"` alone) the claim describes. -/
theorem db_find_matches_empty_query_counterexample :
    dbFindMatches [' ', 'a', ' ', '\n'] [] = [[' ', 'a', ' '], []] ∧
    ([[' ', 'a', ' '], []] : List (List Char)) ≠ [['a']] := by
  constructor
  · rfl
  · decide

/-- Claim C8, amended: with the empty query `DB::find_matches` yields
every segment of the buffer split on newline verbatim — untrimmed and
including empty segments — with no score filtering; this agrees with the
claim only when every buffer line is already trimmed and nonempty and
there is no trailing newline. -/
theorem db_find_matches_empty_query (data : List Char) :
    dbFindMatches data [] = splitNl data := by
  rw [dbFindMatches]
  have h : ∀ a : List Char,
      (if ([] : List Char).isEmpty then some a
       else
         let a' := trimStr a
         if a'.isEmpty then none
         else if calc_score [] a' = 0 then none else some a') = some a := by
    intro a
    rfl
  calc (splitNl data).filterMap _
      = (splitNl data).filterMap (fun a => some a) := by
        apply List.filterMap_congr
        intro a _
        exact h a
    _ = splitNl data := list_filterMap_some _

theorem tokens_of_all_sep {q : List Char}
    (h : ∀ c ∈ q, isWordSep c = true) : tokens q = [] := by
  induction q with
  | nil => rfl
  | cons c rest ih =>
      have hc : isWordSep c = true := h c (List.mem_cons_self _ _)
      have hrest : ∀ x ∈ rest, isWordSep x = true := fun x hx =>
        h x (List.mem_cons_of_mem _ hx)
      have hstep : tokens (c :: rest) = tokens rest := by
        simp [tokens, splitSep, splitBy, hc, List.filter_cons]
      rw [hstep]
      exact ih hrest

/-- Claim C10: a query with no tokens (empty, or consisting only of
separator characters) scores `0` against every candidate, so
`DBView::find_matches` produces the empty result list for it — the
interactive ranked list shows no rows when the query is emptied, unlike
`DB::find_matches` which special-cases the empty query. -/
theorem token_free_query_no_matches :
    ∀ q : List Char, (∀ c ∈ q, isWordSep c = true) →
      (∀ cand : List Char, calc_score q cand = 0) ∧
      (∀ (lines : List (List Char)) (out : List (List Char × ℚ)),
        dbViewFindMatches lines q out = []) := by
  intro q hq
  have htok : tokens q = [] := tokens_of_all_sep hq
  have hscore : ∀ cand : List Char, calc_score q cand = 0 := by
    intro cand
    rw [calc_score, keywordsScore, htok]
    rfl
  refine ⟨hscore, ?_⟩
  intro lines out
  rw [dbViewFindMatches]
  have hnil : lines.filterMap (fun a =>
      let s := calc_score q a
      if s = 0 then none else some (a, s)) = [] := by
    rw [List.filterMap_eq_nil_iff]
    intro a _
    simp [hscore a]
  rw [hnil]
  rfl

/-- Witness for `token_free_query_no_matches` at the query `"/"`. -/
theorem token_free_query_no_matches_witness :
    (∀ c ∈ (['/'] : List Char), isWordSep c = true) ∧
    dbViewFindMatches [['a']] ['/'] [(['x'], 5)] = [] :=
  ⟨by decide, (token_free_query_no_matches ['/'] (by decide)).2 [['a']] [(['x'], 5)]⟩

/-! ## Sorted insertion and the Index invariant (src/db.rs) -/

/-- The scan loop of `str_sorted_insert`: walk the lines of the
destination; `none` when a line equals the source (exact match: no-op),
otherwise the accumulated offset of the start of the first line greater
than the source (or the offset past the final line).  Rust accumulates
`line.len() + 1` bytes per line; offsets and lengths are modelled in
characters, which is isomorphic because every offset the function uses
lies on a line boundary.  Rust's `>` on `&str` (byte order on UTF-8) is
the lexicographic order on `List Char`. -/
def scanPos (source : List Char) : List (List Char) → Nat → Option Nat
  | [], acc => some acc
  | l :: ls, acc =>
      if l = source then none
      else if source < l then some acc
      else scanPos source ls (acc + l.length + 1)

/-- src/db.rs `str_sorted_insert`. -/
def str_sorted_insert (dest source : List Char) : List Char :=
  match scanPos source (splitNl dest) 0 with
  | none => dest
  | some count =>
      if count < dest.length then
        dest.take count ++ source ++ '\n' :: dest.drop count
      else
        dest ++ '\n' :: source

/-- src/db.rs `DB::add`: trim the entry, reject embedded newlines,
otherwise insert in sorted position.  `none` models the `bail!`. -/
def dbAdd (data entry : List Char) : Option (List Char) :=
  let e := trimStr entry
  if '\n' ∈ e then none
  else some (str_sorted_insert data e)

/-- Concatenation of segments (`String::push_str` in a loop). -/
def concatSegs : List (List Char) → List Char
  | [] => []
  | s :: rest => s ++ concatSegs rest

/-- src/db.rs `DB::from_entries`: sort the entries (Rust's stable `sort`
by the string order; insertionSort is the same stable sort) and append
each followed by a newline. -/
def from_entries (entries : List (List Char)) : List Char :=
  concatSegs ((entries.insertionSort (· ≤ ·)).map (fun e => e ++ ['\n']))

/-- The mutating Index operations of src/db.rs. -/
inductive DBOp
  | add (entry : List Char)
  | rebuild (entries : List (List Char))

/-- One Index operation applied to the buffer (`DB::add` leaves the
buffer unchanged when it bails; `DB::from_entries` replaces it). -/
def applyOp (data : List Char) : DBOp → List Char
  | .add e => (dbAdd data e).getD data
  | .rebuild es => from_entries es

/-- The buffer after a sequence of Index operations starting from
`DB::empty`. -/
def runOps (ops : List DBOp) : List Char :=
  ops.foldl applyOp []

/-- The record set tracked alongside the operations: `add` inserts the
trimmed entry, `rebuild` replaces the set wholesale. -/
def stepRecords (S : List (List Char)) : DBOp → List (List Char)
  | .add e => trimStr e :: S
  | .rebuild es => es

/-- The record set after a sequence of operations. -/
def recordsAfter (ops : List DBOp) : List (List Char) :=
  ops.foldl stepRecords []

/-- The claims' constraints on operations: added records are trimmed to
something nonempty and newline-free; rebuild inputs are duplicate-free
lists of nonempty newline-free records. -/
def ValidOp : DBOp → Prop
  | .add e => trimStr e ≠ [] ∧ '\n' ∉ trimStr e
  | .rebuild es => es.Nodup ∧ ∀ x ∈ es, x ≠ [] ∧ '\n' ∉ x

/-- The non-empty line segments of a buffer. -/
def nonEmptySegs (data : List Char) : List (List Char) :=
  (splitNl data).filter (fun s => !s.isEmpty)

/-- The Index invariant relating a buffer to a record set: the non-empty
line segments are strictly sorted (hence duplicate-free) and are exactly
the records. -/
def IndexInv (data : List Char) (S : List (List Char)) : Prop :=
  List.Sorted (· < ·) (nonEmptySegs data) ∧
  ∀ r, r ∈ nonEmptySegs data ↔ r ∈ S

/-- "Discarding empty trailing segments", as the claim words it. -/
def dropTrailingEmpties (l : List (List Char)) : List (List Char) :=
  (l.reverse.dropWhile (fun s => s.isEmpty)).reverse

/-- Segment-level rendering of the buffer: the lines joined by `'\n'`. -/
def joinNl : List (List Char) → List Char
  | [] => []
  | [s] => s
  | s :: s2 :: rest => s ++ '\n' :: joinNl (s2 :: rest)

/-- Segment-level version of `str_sorted_insert`: keep the list when the
source is already a segment, otherwise insert it before the first
greater segment. -/
def segIns (src : List Char) : List (List Char) → List (List Char)
  | [] => [src]
  | l :: ls =>
      if l = src then l :: ls
      else if src < l then src :: l :: ls
      else l :: segIns src ls

theorem splitBy_ne_nil (p : Char → Bool) (l : List Char) : splitBy p l ≠ [] := by
  induction l with
  | nil => simp [splitBy]
  | cons c rest ih =>
      rw [splitBy]
      by_cases h : p c
      · simp [h]
      · rw [if_neg h]
        cases hs : splitBy p rest with
        | nil => exact absurd hs ih
        | cons a as => simp [List.modifyHead]

theorem splitNl_ne_nil (l : List Char) : splitNl l ≠ [] :=
  splitBy_ne_nil _ l

theorem joinNl_cons (s : List Char) (rest : List (List Char)) (h : rest ≠ []) :
    joinNl (s :: rest) = s ++ '\n' :: joinNl rest := by
  cases rest with
  | nil => exact absurd rfl h
  | cons s2 rest' => rfl

theorem joinNl_cons_cons (c : Char) (s : List Char) (ss : List (List Char)) :
    joinNl ((c :: s) :: ss) = c :: joinNl (s :: ss) := by
  cases ss with
  | nil => rfl
  | cons s2 rest => rfl

theorem splitNl_eq (l : List Char) :
    splitNl l = splitBy (fun c => c == '\n') l := rfl

theorem joinNl_splitNl (d : List Char) : joinNl (splitNl d) = d := by
  induction d with
  | nil => rfl
  | cons c rest ih =>
      rw [splitNl_eq, splitBy]
      by_cases h : (c == '\n') = true
      · rw [if_pos h]
        have hc : c = '\n' := by simpa using h
        rw [← splitNl_eq, joinNl_cons _ _ (splitNl_ne_nil rest), ih, hc]
        rfl
      · rw [if_neg h]
        rw [← splitNl_eq]
        obtain ⟨s, ss, hs⟩ : ∃ s ss, splitNl rest = s :: ss := by
          cases hsp : splitNl rest with
          | nil => exact absurd hsp (splitNl_ne_nil rest)
          | cons a as => exact ⟨a, as, rfl⟩
        rw [hs] at ih ⊢
        rw [List.modifyHead, joinNl_cons_cons, ih]

theorem mem_splitNl_no_nl {d s : List Char} (h : s ∈ splitNl d) : '\n' ∉ s := by
  induction d generalizing s with
  | nil =>
      rw [splitNl_eq, splitBy] at h
      rcases List.mem_singleton.mp h with rfl
      simp
  | cons c rest ih =>
      rw [splitNl_eq, splitBy, ← splitNl_eq] at h
      by_cases hc : (c == '\n') = true
      · rw [if_pos hc] at h
        rcases List.mem_cons.mp h with rfl | h'
        · simp
        · exact ih h'
      · rw [if_neg hc] at h
        have hcne : c ≠ '\n' := by simpa using hc
        cases hs : splitNl rest with
        | nil => exact absurd hs (splitNl_ne_nil rest)
        | cons t ts =>
            rw [hs, List.modifyHead] at h
            rcases List.mem_cons.mp h with rfl | h'
            · intro hmem
              rcases List.mem_cons.mp hmem with rfl | hmem'
              · exact hcne rfl
              · have ht : t ∈ splitNl rest := by
                  rw [hs]; exact List.mem_cons_self _ _
                exact ih ht hmem'
            · have hss : s ∈ splitNl rest := by
                rw [hs]; exact List.mem_cons_of_mem _ h'
              exact ih hss

theorem splitNl_no_nl {s : List Char} (h : '\n' ∉ s) : splitNl s = [s] := by
  induction s with
  | nil => rfl
  | cons c rest ih =>
      have hc : c ≠ '\n' := fun hc => h (hc ▸ List.mem_cons_self _ _)
      have hrest : '\n' ∉ rest := fun hm => h (List.mem_cons_of_mem _ hm)
      rw [splitNl_eq, splitBy, if_neg (by simpa using hc), ← splitNl_eq]
      rw [ih hrest]
      rfl

theorem splitNl_append_nl {s : List Char} (h : '\n' ∉ s) (d : List Char) :
    splitNl (s ++ '\n' :: d) = s :: splitNl d := by
  induction s with
  | nil =>
      rw [List.nil_append, splitNl_eq, splitBy, ← splitNl_eq]
      simp
  | cons c cs ih =>
      have hc : c ≠ '\n' := fun hc => h (hc ▸ List.mem_cons_self _ _)
      have hcs : '\n' ∉ cs := fun hm => h (List.mem_cons_of_mem _ hm)
      rw [List.cons_append, splitNl_eq, splitBy, if_neg (by simpa using hc),
        ← splitNl_eq]
      rw [ih hcs]
      rfl

theorem splitNl_joinNl {segs : List (List Char)} (hne : segs ≠ [])
    (hnl : ∀ s ∈ segs, '\n' ∉ s) : splitNl (joinNl segs) = segs := by
  induction segs with
  | nil => exact absurd rfl hne
  | cons s rest ih =>
      cases rest with
      | nil =>
          rw [joinNl]
          exact splitNl_no_nl (hnl s (List.mem_cons_self _ _))
      | cons s2 rest' =>
          rw [joinNl_cons s (s2 :: rest') (by simp)]
          rw [splitNl_append_nl (hnl s (List.mem_cons_self _ _))]
          rw [ih (by simp) (fun x hx => hnl x (List.mem_cons_of_mem _ hx))]

theorem segIns_ne_nil (src : List Char) (segs : List (List Char)) :
    segIns src segs ≠ [] := by
  cases segs with
  | nil => simp [segIns]
  | cons l ls =>
      rw [segIns]
      split
      · simp
      · split <;> simp

theorem mem_segIns_iff {src x : List Char} :
    ∀ segs, (x ∈ segIns src segs ↔ x = src ∨ x ∈ segs) := by
  intro segs
  induction segs with
  | nil => simp [segIns]
  | cons l ls ih =>
      by_cases h1 : l = src
      · subst h1
        rw [segIns, if_pos rfl]
        simp only [List.mem_cons]
        tauto
      · rw [segIns, if_neg h1]
        by_cases h2 : src < l
        · rw [if_pos h2]
          simp only [List.mem_cons]
        · rw [if_neg h2]
          simp only [List.mem_cons, ih]
          tauto

theorem scanPos_add (src : List Char) :
    ∀ (ls : List (List Char)) (acc : Nat),
      scanPos src ls acc = (scanPos src ls 0).map (fun j => acc + j) := by
  intro ls
  induction ls with
  | nil => intro acc; simp [scanPos]
  | cons l ls ih =>
      intro acc
      rw [scanPos, scanPos]
      by_cases h1 : l = src
      · rw [if_pos h1, if_pos h1]
        rfl
      · rw [if_neg h1, if_neg h1]
        by_cases h2 : src < l
        · rw [if_pos h2, if_pos h2]
          simp
        · rw [if_neg h2, if_neg h2]
          rw [ih (acc + l.length + 1), ih (0 + l.length + 1)]
          cases scanPos src ls 0 with
          | none => rfl
          | some j =>
              simp only [Option.map_some']
              congr 1
              omega

theorem ssi_of_scan_none {d src : List Char}
    (h : scanPos src (splitNl d) 0 = none) :
    str_sorted_insert d src = d := by
  rw [str_sorted_insert, h]

theorem ssi_of_scan_some {d src : List Char} {c : Nat}
    (h : scanPos src (splitNl d) 0 = some c) :
    str_sorted_insert d src =
      if c < d.length then d.take c ++ src ++ '\n' :: d.drop c
      else d ++ '\n' :: src := by
  rw [str_sorted_insert, h]

/-- The char-level `str_sorted_insert` is the segment-level `segIns`:
inserting into a buffer rendered from newline-free segments rewrites the
segment list by `segIns`. -/
theorem insert_join {src : List Char} (hsrc : src ≠ []) :
    ∀ segs, segs ≠ [] → (∀ s ∈ segs, '\n' ∉ s) →
      str_sorted_insert (joinNl segs) src = joinNl (segIns src segs) := by
  intro segs
  induction segs with
  | nil => intro h; exact absurd rfl h
  | cons l ls ih =>
      intro _ hnls
      have hl : '\n' ∉ l := hnls l (List.mem_cons_self _ _)
      have hsplit : splitNl (joinNl (l :: ls)) = l :: ls :=
        splitNl_joinNl (by simp) hnls
      cases ls with
      | nil =>
          by_cases h1 : l = src
          · have hscan : scanPos src (splitNl (joinNl [l])) 0 = none := by
              rw [hsplit, scanPos, if_pos h1]
            rw [ssi_of_scan_none hscan, segIns, if_pos h1]
          · by_cases h2 : src < l
            · have hlne : l ≠ [] := by
                intro he
                rw [he] at h2
                exact List.Lex.not_nil_right _ _ h2
              have hscan : scanPos src (splitNl (joinNl [l])) 0 = some 0 := by
                rw [hsplit, scanPos, if_neg h1, if_pos h2]
              rw [ssi_of_scan_some hscan, segIns, if_neg h1, if_pos h2]
              have hlen : 0 < (joinNl [l]).length := by
                cases l with
                | nil => exact absurd rfl hlne
                | cons a as => simp [joinNl]
              rw [if_pos hlen]
              simp [joinNl]
            · have hscan : scanPos src (splitNl (joinNl [l])) 0 =
                  some (0 + l.length + 1) := by
                rw [hsplit, scanPos, if_neg h1, if_neg h2, scanPos]
              rw [ssi_of_scan_some hscan, segIns, if_neg h1, if_neg h2]
              have hlen : ¬ (0 + l.length + 1 < (joinNl [l]).length) := by
                have hj : joinNl [l] = l := rfl
                rw [hj]
                omega
              rw [if_neg hlen]
              simp [segIns, joinNl]
      | cons l2 ls' =>
          have hT : (l2 :: ls') ≠ [] := by simp
          have hnlT : ∀ s ∈ l2 :: ls', '\n' ∉ s := fun s hs =>
            hnls s (List.mem_cons_of_mem _ hs)
          have hsplitT : splitNl (joinNl (l2 :: ls')) = l2 :: ls' :=
            splitNl_joinNl hT hnlT
          have hJ : joinNl (l :: l2 :: ls') = l ++ '\n' :: joinNl (l2 :: ls') :=
            joinNl_cons _ _ hT
          by_cases h1 : l = src
          · have hscan : scanPos src (splitNl (joinNl (l :: l2 :: ls'))) 0 = none := by
              rw [hsplit, scanPos, if_pos h1]
            rw [ssi_of_scan_none hscan, segIns, if_pos h1]
          · by_cases h2 : src < l
            · have hscan : scanPos src (splitNl (joinNl (l :: l2 :: ls'))) 0 =
                  some 0 := by
                rw [hsplit, scanPos, if_neg h1, if_pos h2]
              rw [ssi_of_scan_some hscan, segIns, if_neg h1, if_pos h2]
              have hlen : 0 < (joinNl (l :: l2 :: ls')).length := by
                rw [hJ]
                cases l <;> simp
              rw [if_pos hlen]
              rw [joinNl_cons src (l :: l2 :: ls') (by simp)]
              simp
            · have hih := ih hT hnlT
              have hscan0 := scanPos_add src (l2 :: ls') (0 + l.length + 1)
              have hscanstep : scanPos src (splitNl (joinNl (l :: l2 :: ls'))) 0 =
                  (scanPos src (l2 :: ls') 0).map (fun j => 0 + l.length + 1 + j) := by
                rw [hsplit, scanPos, if_neg h1, if_neg h2, hscan0]
              rw [segIns, if_neg h1, if_neg h2]
              cases hscanT : scanPos src (l2 :: ls') 0 with
              | none =>
                  have hscan : scanPos src (splitNl (joinNl (l :: l2 :: ls'))) 0 =
                      none := by rw [hscanstep, hscanT]; rfl
                  rw [ssi_of_scan_none hscan]
                  have hTsame : joinNl (segIns src (l2 :: ls')) = joinNl (l2 :: ls') := by
                    have h1 : str_sorted_insert (joinNl (l2 :: ls')) src =
                        joinNl (l2 :: ls') :=
                      ssi_of_scan_none (by rw [hsplitT, hscanT])
                    rw [← hih, h1]
                  rw [joinNl_cons _ _ (segIns_ne_nil src (l2 :: ls')), hTsame, ← hJ]
              | some j =>
                  have hscan : scanPos src (splitNl (joinNl (l :: l2 :: ls'))) 0 =
                      some (0 + l.length + 1 + j) := by
                    rw [hscanstep, hscanT]; rfl
                  rw [ssi_of_scan_some hscan]
                  have hihsome := @ssi_of_scan_some (joinNl (l2 :: ls'))
                    src j (by rw [hsplitT, hscanT])
                  rw [hihsome] at hih
                  have hJlen : (joinNl (l :: l2 :: ls')).length =
                      l.length + 1 + (joinNl (l2 :: ls')).length := by
                    rw [hJ]; simp; omega
                  by_cases hjlt : j < (joinNl (l2 :: ls')).length
                  · have hclt : 0 + l.length + 1 + j <
                        (joinNl (l :: l2 :: ls')).length := by
                      rw [hJlen]; omega
                    rw [if_pos hclt]
                    rw [if_pos hjlt] at hih
                    have harr : 0 + l.length + 1 + j = l.length + (1 + j) := by omega
                    have hsplit2 : joinNl (l :: l2 :: ls') =
                        l ++ '\n' :: joinNl (l2 :: ls') := hJ
                    rw [hsplit2, harr, List.take_append, List.drop_append]
                    have htk : ('\n' :: joinNl (l2 :: ls')).take (1 + j) =
                        '\n' :: (joinNl (l2 :: ls')).take j := by
                      have h1j : 1 + j = j + 1 := by omega
                      rw [h1j, List.take_succ_cons]
                    have hdr : ('\n' :: joinNl (l2 :: ls')).drop (1 + j) =
                        (joinNl (l2 :: ls')).drop j := by
                      have h1j : 1 + j = j + 1 := by omega
                      rw [h1j, List.drop_succ_cons]
                    rw [htk, hdr]
                    rw [joinNl_cons _ _ (segIns_ne_nil src (l2 :: ls')), ← hih]
                    simp
                  · have hcge : ¬ (0 + l.length + 1 + j <
                        (joinNl (l :: l2 :: ls')).length) := by
                      rw [hJlen]; omega
                    rw [if_neg hcge]
                    rw [if_neg hjlt] at hih
                    rw [joinNl_cons _ _ (segIns_ne_nil src (l2 :: ls')), ← hih]
                    rw [hJ]
                    simp

theorem filterNE_cons (s : List Char) (l : List (List Char)) :
    (s :: l).filter (fun t => !t.isEmpty) =
      if s = [] then l.filter (fun t => !t.isEmpty)
      else s :: l.filter (fun t => !t.isEmpty) := by
  by_cases h : s = []
  · subst h
    simp [List.filter_cons]
  · rw [if_neg h, List.filter_cons]
    have hb : (!s.isEmpty) = true := by
      cases s with
      | nil => exact absurd rfl h
      | cons a as => rfl
    simp [hb]

theorem filter_segIns {src : List Char} (hsrc : src ≠ []) :
    ∀ segs, (segIns src segs).filter (fun t => !t.isEmpty) =
      segIns src (segs.filter (fun t => !t.isEmpty)) := by
  intro segs
  induction segs with
  | nil =>
      rw [segIns, filterNE_cons, if_neg hsrc]
      rfl
  | cons l ls ih =>
      by_cases h1 : l = src
      · subst h1
        rw [segIns, if_pos rfl, filterNE_cons, if_neg hsrc, segIns, if_pos rfl]
      · by_cases hl : l = []
        · subst hl
          have h2 : ¬ src < ([] : List Char) := fun h =>
            List.Lex.not_nil_right _ _ h
          rw [segIns, if_neg h1, if_neg h2]
          rw [filterNE_cons, if_pos rfl, filterNE_cons, if_pos rfl]
          exact ih
        · by_cases h2 : src < l
          · rw [segIns, if_neg h1, if_pos h2]
            rw [filterNE_cons, if_neg hsrc, filterNE_cons, if_neg hl]
            rw [segIns, if_neg h1, if_pos h2]
          · rw [segIns, if_neg h1, if_neg h2]
            rw [filterNE_cons, if_neg hl, filterNE_cons, if_neg hl]
            rw [ih]
            rw [segIns, if_neg h1, if_neg h2]

theorem segIns_sorted {src : List Char} :
    ∀ {segs : List (List Char)}, List.Sorted (· < ·) segs →
      List.Sorted (· < ·) (segIns src segs) := by
  intro segs
  induction segs with
  | nil =>
      intro _
      simp [segIns]
  | cons l ls ih =>
      intro hs
      rw [List.sorted_cons] at hs
      obtain ⟨hrel, hls⟩ := hs
      by_cases h1 : l = src
      · rw [segIns, if_pos h1, List.sorted_cons]
        exact ⟨hrel, hls⟩
      · by_cases h2 : src < l
        · rw [segIns, if_neg h1, if_pos h2, List.sorted_cons]
          refine ⟨?_, ?_⟩
          · intro b hb
            rcases List.mem_cons.mp hb with rfl | hb'
            · exact h2
            · exact lt_trans h2 (hrel b hb')
          · rw [List.sorted_cons]
            exact ⟨hrel, hls⟩
        · rw [segIns, if_neg h1, if_neg h2, List.sorted_cons]
          refine ⟨?_, ih hls⟩
          intro b hb
          rcases (mem_segIns_iff _).mp hb with rfl | hb'
          · rcases lt_trichotomy l b with h | h | h
            · exact h
            · exact absurd h h1
            · exact absurd h h2
          · exact hrel b hb'

theorem splitNl_concat :
    ∀ L : List (List Char), (∀ x ∈ L, '\n' ∉ x) →
      splitNl (concatSegs (L.map (fun e => e ++ ['\n']))) = L ++ [[]] := by
  intro L
  induction L with
  | nil => intro _; rfl
  | cons e L' ih =>
      intro hnl
      have he : '\n' ∉ e := hnl e (List.mem_cons_self _ _)
      have hL' : ∀ x ∈ L', '\n' ∉ x := fun x hx => hnl x (List.mem_cons_of_mem _ hx)
      rw [List.map_cons, concatSegs]
      have has : (e ++ ['\n']) ++ concatSegs (L'.map (fun e => e ++ ['\n'])) =
          e ++ '\n' :: concatSegs (L'.map (fun e => e ++ ['\n'])) := by
        rw [List.append_assoc]
        rfl
      rw [has, splitNl_append_nl he, ih hL']
      rfl

theorem index_inv_empty : IndexInv [] [] := by
  constructor
  · have h : nonEmptySegs [] = [] := rfl
    rw [h]
    exact List.sorted_nil
  · intro r
    have h : nonEmptySegs [] = [] := rfl
    rw [h]

theorem applyOp_add_inv {d : List Char} {S : List (List Char)}
    (h : IndexInv d S) {e : List Char} (hop : ValidOp (DBOp.add e)) :
    IndexInv (applyOp d (DBOp.add e)) (stepRecords S (DBOp.add e)) := by
  obtain ⟨hne, hnl⟩ := hop
  obtain ⟨hsort, hmem⟩ := h
  have happ : applyOp d (DBOp.add e) = str_sorted_insert d (trimStr e) := by
    rw [applyOp]
    show (dbAdd d e).getD d = _
    rw [dbAdd]
    show (if '\n' ∈ trimStr e then none
      else some (str_sorted_insert d (trimStr e))).getD d = _
    rw [if_neg hnl]
    rfl
  have hsegs : splitNl (str_sorted_insert d (trimStr e)) =
      segIns (trimStr e) (splitNl d) := by
    have h1 : str_sorted_insert d (trimStr e) =
        str_sorted_insert (joinNl (splitNl d)) (trimStr e) := by
      rw [joinNl_splitNl]
    rw [h1, insert_join hne (splitNl d) (splitNl_ne_nil d)
      (fun s hs => mem_splitNl_no_nl hs)]
    refine splitNl_joinNl (segIns_ne_nil _ _) ?_
    intro s hs
    rcases (mem_segIns_iff _).mp hs with rfl | hs'
    · exact hnl
    · exact mem_splitNl_no_nl hs'
  have hfilter : nonEmptySegs (applyOp d (DBOp.add e)) =
      segIns (trimStr e) (nonEmptySegs d) := by
    rw [nonEmptySegs, happ, hsegs, filter_segIns hne]
    rfl
  constructor
  · rw [hfilter]
    exact segIns_sorted hsort
  · intro r
    rw [hfilter, stepRecords]
    rw [mem_segIns_iff, List.mem_cons, hmem r]

theorem le_total_listChar : IsTotal (List Char) (fun a b : List Char => a ≤ b) :=
  ⟨fun a b => le_total a b⟩

theorem le_trans_listChar : IsTrans (List Char) (fun a b : List Char => a ≤ b) :=
  ⟨fun a b c hab hbc => le_trans hab hbc⟩

theorem applyOp_rebuild_inv {es : List (List Char)}
    (hop : ValidOp (DBOp.rebuild es)) {d : List Char} {S : List (List Char)} :
    IndexInv (applyOp d (DBOp.rebuild es)) (stepRecords S (DBOp.rebuild es)) := by
  obtain ⟨hnd, hx⟩ := hop
  have hnle : ∀ x ∈ es.insertionSort (fun a b => a ≤ b), '\n' ∉ x := by
    intro x hxm
    exact (hx x ((List.mem_insertionSort _).mp hxm)).2
  have happ : applyOp d (DBOp.rebuild es) = from_entries es := rfl
  have hsegs : splitNl (from_entries es) =
      es.insertionSort (fun a b => a ≤ b) ++ [[]] := by
    rw [from_entries]
    exact splitNl_concat _ hnle
  have hfilter : nonEmptySegs (applyOp d (DBOp.rebuild es)) =
      es.insertionSort (fun a b => a ≤ b) := by
    rw [nonEmptySegs, happ, hsegs, List.filter_append]
    have h1 : ([[]] : List (List Char)).filter (fun t => !t.isEmpty) = [] := rfl
    rw [h1, List.append_nil]
    rw [List.filter_eq_self]
    intro a ha
    have hane : a ≠ [] := (hx a ((List.mem_insertionSort _).mp ha)).1
    cases a with
    | nil => exact absurd rfl hane
    | cons b bs => rfl
  have hsorted : List.Sorted (fun a b : List Char => a ≤ b)
      (es.insertionSort (fun a b => a ≤ b)) := by
    haveI := le_total_listChar
    haveI := le_trans_listChar
    exact List.sorted_insertionSort _ _
  have hnodup : (es.insertionSort (fun a b => a ≤ b)).Nodup :=
    (List.perm_insertionSort _ _).nodup_iff.mpr hnd
  constructor
  · rw [hfilter]
    exact List.Sorted.lt_of_le hsorted hnodup
  · intro r
    rw [hfilter, stepRecords]
    exact List.mem_insertionSort _

theorem index_inv_steps :
    ∀ (ops : List DBOp) (d : List Char) (S : List (List Char)),
      IndexInv d S → (∀ op ∈ ops, ValidOp op) →
      IndexInv (ops.foldl applyOp d) (ops.foldl stepRecords S) := by
  intro ops
  induction ops with
  | nil => intro d S h _; exact h
  | cons op rest ih =>
      intro d S h hv
      rw [List.foldl_cons, List.foldl_cons]
      apply ih
      · cases op with
        | add e => exact applyOp_add_inv h (hv _ (List.mem_cons_self _ _))
        | rebuild es => exact applyOp_rebuild_inv (hv _ (List.mem_cons_self _ _))
      · exact fun op hop => hv op (List.mem_cons_of_mem _ hop)

/-- Claim C5, counterexample: starting from the empty Index, `add "a"`
produces the buffer `"\na"` (the append path pushes a leading newline),
so splitting on newline and discarding only *trailing* empty segments
yields `["", "a"]`, not the record set `["a"]`. -/
theorem index_invariant_counterexample :
    runOps [DBOp.add ['a']] = ['\n', 'a'] ∧
    dropTrailingEmpties (splitNl (runOps [DBOp.add ['a']])) = [[], ['a']] ∧
    recordsAfter [DBOp.add ['a']] = [['a']] ∧
    ([[], ['a']] : List (List Char)) ≠ [['a']] := by
  refine ⟨by decide, by decide, by decide, by decide⟩

/-- Claim C5, amended: for every Index reachable from the empty Index by
`add` operations (with trimmed-nonempty, newline-free records) and
`from_entries` rebuilds (with duplicate-free, nonempty, newline-free
input), splitting the buffer on `'\n'` and discarding *all* empty
segments (not only trailing ones — the insertion can leave a leading or
interior empty segment) yields exactly the set of inserted records,
strictly sorted ascending and hence duplicate-free. -/
theorem index_invariant (ops : List DBOp) (hv : ∀ op ∈ ops, ValidOp op) :
    List.Sorted (· < ·) (nonEmptySegs (runOps ops)) ∧
    (∀ r, r ∈ nonEmptySegs (runOps ops) ↔ r ∈ recordsAfter ops) := by
  have h := index_inv_steps ops [] [] index_inv_empty hv
  rw [runOps, recordsAfter]
  exact h

/-- Witness for `index_invariant` on `add "b"` then `add "a"`. -/
theorem index_invariant_witness :
    (∀ op ∈ [DBOp.add ['b'], DBOp.add ['a']], ValidOp op) ∧
    (List.Sorted (· < ·) (nonEmptySegs (runOps [DBOp.add ['b'], DBOp.add ['a']])) ∧
     (∀ r, r ∈ nonEmptySegs (runOps [DBOp.add ['b'], DBOp.add ['a']]) ↔
        r ∈ recordsAfter [DBOp.add ['b'], DBOp.add ['a']])) := by
  have hv : ∀ op ∈ [DBOp.add ['b'], DBOp.add ['a']], ValidOp op := by
    intro op hop
    rcases List.mem_cons.mp hop with rfl | hop
    · exact ⟨by decide, by decide⟩
    rcases List.mem_cons.mp hop with rfl | hop
    · exact ⟨by decide, by decide⟩
    · exact absurd hop (List.not_mem_nil _)
  exact ⟨hv, index_invariant _ hv⟩

theorem scanPos_none_of_mem {src : List Char} :
    ∀ {segs : List (List Char)}, List.Sorted (fun a b : List Char => a ≤ b) segs →
      src ∈ segs → ∀ acc, scanPos src segs acc = none := by
  intro segs
  induction segs with
  | nil => intro _ h; exact absurd h (List.not_mem_nil _)
  | cons l ls ih =>
      intro hs hmem acc
      rw [List.sorted_cons] at hs
      obtain ⟨hrel, hls⟩ := hs
      rw [scanPos]
      by_cases h1 : l = src
      · rw [if_pos h1]
      · rw [if_neg h1]
        have hmem' : src ∈ ls := by
          rcases List.mem_cons.mp hmem with rfl | h'
          · exact absurd rfl h1
          · exact h'
        have hle : l ≤ src := hrel src hmem'
        rw [if_neg (not_lt.mpr hle)]
        exact ih hls hmem' _

/-- Claim C6: when the buffer lines are sorted ascending and the trimmed
entry already occurs as a line, `DB::add` succeeds and leaves the buffer
unchanged (duplicate insertion is idempotent). -/
theorem add_existing_idempotent (data entry : List Char)
    (hsorted : List.Sorted (fun a b : List Char => a ≤ b) (splitNl data))
    (hmem : trimStr entry ∈ splitNl data) :
    dbAdd data entry = some data := by
  have hnl : '\n' ∉ trimStr entry := mem_splitNl_no_nl hmem
  show (if '\n' ∈ trimStr entry then none
    else some (str_sorted_insert data (trimStr entry))) = some data
  rw [if_neg hnl]
  rw [ssi_of_scan_none (scanPos_none_of_mem hsorted hmem 0)]

/-- Witness for `add_existing_idempotent`: re-adding `"b"` to the buffer
`"a\nb"` returns it unchanged. -/
theorem add_existing_idempotent_witness :
    List.Sorted (fun a b : List Char => a ≤ b) (splitNl ['a', '\n', 'b']) ∧
    trimStr ['b'] ∈ splitNl ['a', '\n', 'b'] ∧
    dbAdd ['a', '\n', 'b'] ['b'] = some ['a', '\n', 'b'] :=
  ⟨by decide, by decide, add_existing_idempotent _ _ (by decide) (by decide)⟩

/-! ## The Prompt Session and the interactive search loop
(src/tui.rs event handling, src/app.rs `App::handle_find`) -/

/-- The termion key events that src/tui.rs distinguishes (all remaining
keys behave like `other`). -/
inductive KeyEvent
  | charKey (c : Char)
  | backspace
  | ctrl (c : Char)
  | alt (c : Char)
  | up
  | down
  | left
  | right
  | ctrlLeft
  | ctrlRight
  | altLeft
  | altRight
  | home
  | endKey
  | other
deriving DecidableEq

/-- src/tui.rs `PromptUIEvent`. -/
inductive PromptUIEvent
  | exit
  | promptUpdated
  | cursorUpdated
  | selectionUpdated
  | selectionDone
deriving DecidableEq

/-- The fields of src/tui.rs `PromptUI` that input handling touches. -/
structure PromptState where
  textInput : List Char
  textCursor : Nat
  selectedItem : Nat
  maxItems : Nat
deriving DecidableEq

/-- src/tui.rs `QUERY_MAX_CHAR_LEN`.  The `Vec` is created with this
capacity and the insertion guard keeps the length at or below it, so the
capacity never grows past it. -/
def QUERY_MAX_CHAR_LEN : Nat := 1000

/-- src/tui.rs `PromptUI::delete_char`; the Bool is the Rust return. -/
def delete_char (st : PromptState) : PromptState × Bool :=
  if st.textInput.isEmpty ∨ st.textCursor = 0 then (st, false)
  else
    ({ st with
        textCursor := st.textCursor - 1,
        textInput := st.textInput.eraseIdx (st.textCursor - 1) }, true)

/-- src/tui.rs `PromptUI::delete_word`: move one word left and drain the
span between the new and the old cursor. -/
def delete_word (st : PromptState) : PromptState × Bool :=
  if st.textInput.isEmpty then (st, false)
  else
    let next := move_cursor st.textInput st.textCursor .left .word
    if st.textCursor = next then (st, false)
    else
      ({ st with
          textInput := st.textInput.take next ++ st.textInput.drop st.textCursor,
          textCursor := next }, true)

/-- src/tui.rs `PromptUI::insert_char`: silently dropped at capacity,
otherwise inserted at the cursor (push when the cursor is at the end). -/
def insert_char (st : PromptState) (ch : Char) : PromptState :=
  if st.textInput.length + 1 > QUERY_MAX_CHAR_LEN then st
  else
    { st with
        textInput := st.textInput.insertIdx st.textCursor ch,
        textCursor := st.textCursor + 1 }

/-- src/tui.rs `PromptUI::handle_event`, as a pure function from state
and key event to new state and optional emitted event. -/
def handle_event (st : PromptState) : KeyEvent → PromptState × Option PromptUIEvent
  | .charKey c =>
      if c = '\n' then (st, some .selectionDone)
      else
        let st' := insert_char st c
        ({ st' with selectedItem := 0 }, some .promptUpdated)
  | .backspace =>
      match delete_char st with
      | (st', true) => ({ st' with selectedItem := 0 }, some .promptUpdated)
      | (st', false) => (st', none)
  | .ctrl c =>
      if c = 'h' ∨ c = 'w' then
        match delete_word st with
        | (st', true) => ({ st' with selectedItem := 0 }, some .promptUpdated)
        | (st', false) => (st', none)
      else if c = 'p' then
        if st.selectedItem > 0 then
          ({ st with selectedItem := st.selectedItem - 1 }, some .selectionUpdated)
        else (st, none)
      else if c = 'n' then
        if st.selectedItem + 1 < st.maxItems then
          ({ st with selectedItem := st.selectedItem + 1 }, some .selectionUpdated)
        else (st, none)
      else if c = 'b' then
        ({ st with textCursor := move_cursor st.textInput st.textCursor .left .char },
          some .cursorUpdated)
      else if c = 'f' then
        ({ st with textCursor := move_cursor st.textInput st.textCursor .right .char },
          some .cursorUpdated)
      else if c = 'a' then
        ({ st with textCursor := move_cursor st.textInput st.textCursor .left .toEnd },
          some .cursorUpdated)
      else if c = 'e' then
        ({ st with textCursor := move_cursor st.textInput st.textCursor .right .toEnd },
          some .cursorUpdated)
      else if c = 'c' ∨ c = 'd' then (st, some .exit)
      else (st, none)
  | .alt c =>
      if c = '\x7f' then
        match delete_word st with
        | (st', true) => ({ st' with selectedItem := 0 }, some .promptUpdated)
        | (st', false) => (st', none)
      else if c = 'b' then
        ({ st with textCursor := move_cursor st.textInput st.textCursor .left .word },
          some .cursorUpdated)
      else if c = 'f' then
        ({ st with textCursor := move_cursor st.textInput st.textCursor .right .word },
          some .cursorUpdated)
      else (st, none)
  | .up =>
      if st.selectedItem > 0 then
        ({ st with selectedItem := st.selectedItem - 1 }, some .selectionUpdated)
      else (st, none)
  | .down =>
      if st.selectedItem + 1 < st.maxItems then
        ({ st with selectedItem := st.selectedItem + 1 }, some .selectionUpdated)
      else (st, none)
  | .left =>
      ({ st with textCursor := move_cursor st.textInput st.textCursor .left .char },
        some .cursorUpdated)
  | .right =>
      ({ st with textCursor := move_cursor st.textInput st.textCursor .right .char },
        some .cursorUpdated)
  | .ctrlLeft =>
      ({ st with textCursor := move_cursor st.textInput st.textCursor .left .word },
        some .cursorUpdated)
  | .altLeft =>
      ({ st with textCursor := move_cursor st.textInput st.textCursor .left .word },
        some .cursorUpdated)
  | .ctrlRight =>
      ({ st with textCursor := move_cursor st.textInput st.textCursor .right .word },
        some .cursorUpdated)
  | .altRight =>
      ({ st with textCursor := move_cursor st.textInput st.textCursor .right .word },
        some .cursorUpdated)
  | .home =>
      ({ st with textCursor := move_cursor st.textInput st.textCursor .left .toEnd },
        some .cursorUpdated)
  | .endKey =>
      ({ st with textCursor := move_cursor st.textInput st.textCursor .right .toEnd },
        some .cursorUpdated)
  | .other => (st, none)

/-- src/tui.rs `PromptUI::render` as far as state is concerned: it sets
`max_items` to the number of rows written, i.e. the provided items
(the caller passes `results.iter().take(max_find_items)`) capped by
`terminal_height - 2`. -/
def renderState (st : PromptState) (resultsLen maxFind heightCap : Nat) :
    PromptState :=
  { st with maxItems := min (min resultsLen maxFind) heightCap }

/-- The event loop of src/app.rs `App::handle_find` (the `for event in
stdin.events()` loop), as a function over the incoming key events.
Returns the reported record, or `none` when the session ends without a
selection (explicit `Exit`, or the event stream ending). -/
def find_loop (lines : List (List Char)) (maxFind heightCap : Nat) :
    PromptState → List (List Char × ℚ) → List KeyEvent → Option (List Char)
  | _, _, [] => none
  | st, results, ev :: rest =>
      let out := handle_event st ev
      match out.2 with
      | some .selectionDone =>
          if out.1.selectedItem < results.length then
            some (results.getD out.1.selectedItem ([], 0)).1
          else
            find_loop lines maxFind heightCap
              (renderState out.1 results.length maxFind heightCap) results rest
      | some .exit => none
      | some .promptUpdated =>
          let results' := dbViewFindMatches lines out.1.textInput results
          find_loop lines maxFind heightCap
            (renderState out.1 results'.length maxFind heightCap) results' rest
      | some .selectionUpdated =>
          find_loop lines maxFind heightCap
            (renderState out.1 results.length maxFind heightCap) results rest
      | some .cursorUpdated =>
          find_loop lines maxFind heightCap
            (renderState out.1 results.length maxFind heightCap) results rest
      | none => find_loop lines maxFind heightCap out.1 results rest

/-- src/app.rs `App::handle_find`: compute the initial ranked results,
take the fast path when exactly one record matches, otherwise run the
interactive loop starting from a fresh `PromptUI` seeded with the query
(truncated to the capacity) and an initial render. -/
def handle_find (lines : List (List Char)) (maxFind heightCap : Nat)
    (queryInit : List Char) (events : List KeyEvent) : Option (List Char) :=
  let results := dbViewFindMatches lines queryInit []
  if results.length = 1 then some (results.getD 0 ([], 0)).1
  else
    let text := queryInit.take QUERY_MAX_CHAR_LEN
    let ui0 : PromptState :=
      { textInput := text, textCursor := text.length,
        selectedItem := 0, maxItems := 0 }
    let ui1 := renderState ui0 results.length maxFind heightCap
    find_loop lines maxFind heightCap ui1 results events

theorem keywordsScore_eq_zero_of_fail {q c : List Char}
    (h : ∃ p ∈ tokens q, ∀ t ∈ tokens c, firstMatch p t = none) :
    keywordsScore q c = 0 := by
  have hne : ∀ x ∈ enumF 0 (tokens q), x.2 ≠ [] := fun x hx =>
    mem_tokens_ne_nil (mem_enumF_snd hx)
  rw [keywordsScore,
    scoreLoop_eq_zero_iff (enumF 0 (tokens c)) (enumF 0 (tokens q)) hne 0 le_rfl]
  left
  obtain ⟨x, hx, hP⟩ := (exists_enumF_iff
    (fun p => ∀ t ∈ tokens c, firstMatch p t = none) (tokens q) 0).mpr h
  refine ⟨x, hx, ?_⟩
  rw [partScoreAux_eq_zero_iff (mem_tokens_ne_nil (mem_enumF_snd hx))]
  rw [forall_enumF_iff (fun t => firstMatch x.2 t = none) (tokens c) 0]
  exact hP

theorem keywordsScore_ne_zero {q c : List Char} (hq : tokens q ≠ [])
    (h : ∀ p ∈ tokens q, ∃ t ∈ tokens c, firstMatch p t ≠ none) :
    keywordsScore q c ≠ 0 := by
  have hne : ∀ x ∈ enumF 0 (tokens q), x.2 ≠ [] := fun x hx =>
    mem_tokens_ne_nil (mem_enumF_snd hx)
  intro h0
  rw [keywordsScore,
    scoreLoop_eq_zero_iff (enumF 0 (tokens c)) (enumF 0 (tokens q)) hne 0 le_rfl] at h0
  rcases h0 with ⟨x, hx, hx0⟩ | ⟨hnil, _⟩
  · rw [partScoreAux_eq_zero_iff (mem_tokens_ne_nil (mem_enumF_snd hx))] at hx0
    rw [forall_enumF_iff (fun t => firstMatch x.2 t = none) (tokens c) 0] at hx0
    obtain ⟨t, ht, htne⟩ := h x.2 (mem_enumF_snd hx)
    exact htne (hx0 t ht)
  · exact hq (enumF_eq_nil_iff.mp hnil)

/-- Claim C1, counterexample: confirming the selection while it is out of
range of the current results does NOT stop the session.  Starting with
query "x" over the single record "apple" (no matches), pressing Enter,
then Backspace, then 'a', then Enter reports "apple": the first Enter was
ignored rather than ending the session with no selection. -/
theorem handle_find_counterexample :
    handle_find [['a', 'p', 'p', 'l', 'e']] 10 10 ['x']
      [KeyEvent.charKey '\n', KeyEvent.backspace, KeyEvent.charKey 'a',
       KeyEvent.charKey '\n'] = some ['a', 'p', 'p', 'l', 'e'] ∧
    (some ['a', 'p', 'p', 'l', 'e'] : Option (List Char)) ≠ none := by
  have hx : calc_score ['x'] ['a', 'p', 'p', 'l', 'e'] = 0 :=
    keywordsScore_eq_zero_of_fail (by decide)
  have hzero : calc_score [] ['a', 'p', 'p', 'l', 'e'] = 0 := rfl
  have ha : calc_score ['a'] ['a', 'p', 'p', 'l', 'e'] ≠ 0 :=
    keywordsScore_ne_zero (by decide) (by decide)
  have hres_x : dbViewFindMatches [['a', 'p', 'p', 'l', 'e']] ['x'] [] = [] := by
    rw [dbViewFindMatches]
    have hfm : ([['a', 'p', 'p', 'l', 'e']] : List (List Char)).filterMap
        (fun a => let s := calc_score ['x'] a;
          if s = 0 then none else some (a, s)) = [] := by
      rw [List.filterMap_eq_nil_iff]
      intro a haa
      rcases List.mem_singleton.mp haa with rfl
      simp [hx]
    rw [hfm]
    rfl
  have hres_e : ∀ out, dbViewFindMatches [['a', 'p', 'p', 'l', 'e']] [] out = [] := by
    intro out
    rw [dbViewFindMatches]
    have hfm : ([['a', 'p', 'p', 'l', 'e']] : List (List Char)).filterMap
        (fun a => let s := calc_score [] a;
          if s = 0 then none else some (a, s)) = [] := by
      rw [List.filterMap_eq_nil_iff]
      intro a haa
      rcases List.mem_singleton.mp haa with rfl
      simp [hzero]
    rw [hfm]
    rfl
  have hres_a : ∀ out, dbViewFindMatches [['a', 'p', 'p', 'l', 'e']] ['a'] out =
      [(['a', 'p', 'p', 'l', 'e'], calc_score ['a'] ['a', 'p', 'p', 'l', 'e'])] := by
    intro out
    rw [dbViewFindMatches]
    have hfm : ([['a', 'p', 'p', 'l', 'e']] : List (List Char)).filterMap
        (fun a => let s := calc_score ['a'] a;
          if s = 0 then none else some (a, s)) =
        [(['a', 'p', 'p', 'l', 'e'], calc_score ['a'] ['a', 'p', 'p', 'l', 'e'])] := by
      simp [List.filterMap_cons, ha]
    rw [hfm]
    rfl
  have hev1 : handle_event ⟨['x'], 1, 0, 0⟩ (KeyEvent.charKey '\n') =
      (⟨['x'], 1, 0, 0⟩, some PromptUIEvent.selectionDone) := by decide
  have hev2 : handle_event ⟨['x'], 1, 0, 0⟩ KeyEvent.backspace =
      (⟨[], 0, 0, 0⟩, some PromptUIEvent.promptUpdated) := by decide
  have hev3 : handle_event ⟨[], 0, 0, 0⟩ (KeyEvent.charKey 'a') =
      (⟨['a'], 1, 0, 0⟩, some PromptUIEvent.promptUpdated) := by decide
  have hev4 : handle_event ⟨['a'], 1, 0, 1⟩ (KeyEvent.charKey '\n') =
      (⟨['a'], 1, 0, 1⟩, some PromptUIEvent.selectionDone) := by decide
  refine ⟨?_, by simp⟩
  calc handle_find [['a', 'p', 'p', 'l', 'e']] 10 10 ['x']
        [KeyEvent.charKey '\n', KeyEvent.backspace, KeyEvent.charKey 'a',
         KeyEvent.charKey '\n']
      = find_loop [['a', 'p', 'p', 'l', 'e']] 10 10 ⟨['x'], 1, 0, 0⟩ []
          [KeyEvent.charKey '\n', KeyEvent.backspace, KeyEvent.charKey 'a',
           KeyEvent.charKey '\n'] := by
        rw [handle_find, hres_x]
        rfl
    _ = find_loop [['a', 'p', 'p', 'l', 'e']] 10 10 ⟨['x'], 1, 0, 0⟩ []
          [KeyEvent.backspace, KeyEvent.charKey 'a', KeyEvent.charKey '\n'] := by
        rw [find_loop, hev1]
        rfl
    _ = find_loop [['a', 'p', 'p', 'l', 'e']] 10 10 ⟨[], 0, 0, 0⟩ []
          [KeyEvent.charKey 'a', KeyEvent.charKey '\n'] := by
        rw [find_loop, hev2]
        simp only [hres_e]
        rfl
    _ = find_loop [['a', 'p', 'p', 'l', 'e']] 10 10 ⟨['a'], 1, 0, 1⟩
          [(['a', 'p', 'p', 'l', 'e'], calc_score ['a'] ['a', 'p', 'p', 'l', 'e'])]
          [KeyEvent.charKey '\n'] := by
        rw [find_loop, hev3]
        simp only [hres_a]
        rfl
    _ = some ['a', 'p', 'p', 'l', 'e'] := by
        rw [find_loop, hev4]
        rfl

/-- Claim C1, amended: on `SelectionDone`, if the selected row index is
within the count of the last computed result set, the loop stops and the
session reports the record at that index; otherwise the event does *not*
end the session: nothing is reported, only the rendered-row count is
refreshed, and the loop continues with the remaining events.  (The guard
still prevents a stale out-of-range selection from ever being reported.) -/
theorem find_loop_selection_done (lines : List (List Char))
    (maxFind heightCap : Nat) (st : PromptState)
    (results : List (List Char × ℚ)) (rest : List KeyEvent) :
    find_loop lines maxFind heightCap st results (KeyEvent.charKey '\n' :: rest) =
      if st.selectedItem < results.length then
        some (results.getD st.selectedItem ([], 0)).1
      else
        find_loop lines maxFind heightCap
          (renderState st results.length maxFind heightCap) results rest := by
  rfl
